import Mathlib

/-
Verification of the git-watcher repository synchronization and
artifact-publication engine.

The Go sources are shallowly embedded:
  * Go maps (map[string]T) become association lists with a replace-or-append
    write (setKey) and a first-match read (lookupKey); a Go map holds at most
    one binding per key, which corresponds to the keysNodup invariant below.
  * strings.Split with a one-character separator becomes splitSep on the
    underlying character list; strings.Join becomes joinSep.
  * External git invocations become entries of a step trace; outcomes of
    external commands that the code branches on are oracle parameters.
-/

namespace GitWatcher

/-- Read a key from an association list: first binding wins (a faithful model
of a Go map read, since a Go map has at most one binding per key). -/
def lookupKey {α : Type} : List (String × α) → String → Option α
  | [], _ => none
  | (k, v) :: rest, key => if k = key then some v else lookupKey rest key

/-- Write a key into an association list: replace the first binding for the
key, or append a new binding (a faithful model of a Go map write). -/
def setKey {α : Type} : List (String × α) → String → α → List (String × α)
  | [], key, v => [(key, v)]
  | (k, w) :: rest, key, v =>
      if k = key then (key, v) :: rest else (k, w) :: setKey rest key v

/-- Model of Go strings.Split with a one-character separator: split the
character list around every occurrence of the separator.  As in Go, the
result is always non-empty and splitting the empty string yields one empty
field. -/
def splitSep (sep : Char) : List Char → List (List Char)
  | [] => [[]]
  | c :: rest =>
      match splitSep sep rest with
      | [] => [[]]
      | s :: ss => if c = sep then [] :: s :: ss else (c :: s) :: ss

/-- Model of Go strings.Join with a one-character separator. -/
def joinSep (sep : Char) : List (List Char) → List Char
  | [] => []
  | [s] => s
  | s :: rest => s ++ sep :: joinSep sep rest

/-- Version-family key derived in UpdateArtifactsRepo (git.go lines 625-627):
the Go code splits the version on the dash and joins back all fields but the
last one.  The Go variable is named versionPrefix. -/
def versionFamily (version : String) : String :=
  String.mk (joinSep '-' ((splitSep '-' version.data).dropLast))

/-- Innermost level of the artifact document: version family to full version. -/
abbrev PkgMap := List (String × String)

/-- Middle level of the artifact document: package name to its versions. -/
abbrev RepoMap := List (String × PkgMap)

/-- Artifact document stored in the repoName.jsonnet file: source repository
name to its packages. -/
abbrev Document := List (String × RepoMap)

/-- Externally visible operations performed by UpdateArtifactsRepo after the
target-file lock is taken (git.go lines 660-788), in program order.  fsWrite
is the os.WriteFile call on the target file; fsRename never occurs in the
source and is present so that statements about renaming can be expressed. -/
inductive PubStep where
  | fsWrite (path : String) (content : Document)
  | fsRename (src dst : String)
  | gitAdd
  | gitCommit
  | gitPushFeature
  | gitCheckoutTarget
  | gitResetHard
  | gitPullTarget
  | gitMerge
  | gitPushTarget
  deriving DecidableEq

/-- Name of the target file for a source repository (git.go line 618). -/
def jsonnetFileName (repoName : String) : String := repoName ++ ".jsonnet"

/-- Result of one UpdateArtifactsRepo invocation: the document that the
target file holds afterwards, whether the call short-circuited on the
already-published check, and the trace of file/git operations it performed
after taking the file lock. -/
structure PubResult where
  newFile : Document
  alreadyPublished : Bool
  steps : List PubStep
  deriving DecidableEq

/-- Document read-merge-write core of Manager.UpdateArtifactsRepo (git.go
lines 617-788).  The file parameter is the parsed current content of the
repoName.jsonnet target file (none when the file does not exist, matching
the os.ReadFile failure branch).  statusDirty is the outcome of the
"git status --porcelain" check at line 678: commit, push, checkout, reset,
pull, merge and final push run only when it reports pending changes. -/
def UpdateArtifactsRepo (file : Option Document) (repoName pkgName version : String)
    (statusDirty : Bool) : PubResult :=
  let existingContent := file.getD []
  let repoContent := (lookupKey existingContent repoName).getD []
  let pkgContent := (lookupKey repoContent pkgName).getD []
  if lookupKey pkgContent (versionFamily version) = some version then
    { newFile := existingContent, alreadyPublished := true, steps := [] }
  else
    let newDoc := setKey existingContent repoName
      (setKey repoContent pkgName (setKey pkgContent (versionFamily version) version))
    { newFile := newDoc
      alreadyPublished := false
      steps := [PubStep.fsWrite (jsonnetFileName repoName) newDoc, PubStep.gitAdd] ++
        (if statusDirty then
          [PubStep.gitCommit, PubStep.gitPushFeature, PubStep.gitCheckoutTarget,
           PubStep.gitResetHard, PubStep.gitPullTarget, PubStep.gitMerge,
           PubStep.gitPushTarget]
         else []) }

/-- Read document[repoName][pkgName][family], with absent maps read as empty
maps, exactly as the Go code navigates the nested structure. -/
def docLookup (doc : Document) (repoName pkgName family : String) : Option String :=
  lookupKey ((lookupKey ((lookupKey doc repoName).getD []) pkgName).getD []) family

/-- Document stored in the target file after one publication (the trailing
git steps do not change it, so statusDirty is irrelevant here). -/
def publishDoc (file : Option Document) (repoName pkgName version : String) : Document :=
  (UpdateArtifactsRepo file repoName pkgName version true).newFile

/-- Document reached from a starting file state by a sequence of
UpdateArtifactsRepo calls, each reading the file the previous one left. -/
def applyPublishes (file : Option Document) : List (String × String × String) → Document
  | [] => file.getD []
  | (r, p, v) :: rest => applyPublishes (some (publishDoc file r p v)) rest

/-- A Go map holds at most one binding per key; an association list models a
Go map only when its keys are distinct. -/
def keysNodup {α : Type} (l : List (String × α)) : Prop := (l.map Prod.fst).Nodup

/-- Well-formedness of the three-level artifact document: at every level each
key is bound at most once, so each (repo, package, family) triple maps to at
most one version string. -/
def docWF (d : Document) : Prop :=
  keysNodup d ∧ ∀ x ∈ d, keysNodup x.2 ∧ ∀ y ∈ x.2, keysNodup y.2

instance (d : Document) : Decidable (docWF d) := by
  unfold docWF keysNodup
  infer_instance

/-- Outcome of the two external commands run for one submodule in one
reconciliation pass of checkAndUpdateSubmodules (git.go lines 148-173):
whether "git submodule update --recursive --remote NAME" exited successfully,
whether "git rev-parse HEAD" in the submodule exited successfully, and the
environment fact — never read by the code — whether the update actually moved
the submodule to a new commit. -/
structure SubmoduleTick where
  updateOk : Bool
  hashOk : Bool
  advanced : Bool
  deriving DecidableEq

/-- Loop of checkAndUpdateSubmodules over the declared submodules (git.go
lines 147-185): a failed update or hash read is logged and skipped, the next
submodule is still attempted, and anyUpdated is set by every submodule whose
two commands both succeeded.  Returns (anyUpdated, names attempted). -/
def checkAndUpdateSubmodules : List (String × SubmoduleTick) → Bool × List String
  | [] => (false, [])
  | (name, t) :: rest =>
      let tail := checkAndUpdateSubmodules rest
      ((t.updateOk && t.hashOk) || tail.1, name :: tail.2)

/-- Actions of the repository synchronizer on one branch. -/
inductive SyncAction where
  | clone
  | fetch
  | checkout
  | pull
  deriving DecidableEq

/-- checkAndUpdateRepo (git.go lines 353-382): clone when the working copy is
absent; otherwise fetch and count remote-only commits, and checkout+pull only
when the count is non-zero.  Returns (updated, external git actions run). -/
def checkAndUpdateRepo (repoExists hasNewCommits : Bool) : Bool × List SyncAction :=
  if repoExists then
    (hasNewCommits,
      SyncAction.fetch ::
        (if hasNewCommits then [SyncAction.checkout, SyncAction.pull] else []))
  else
    (true, [SyncAction.clone])

/-- Entry of the repoUpdates map of the outbound notification payload
(webhook.go RepoUpdate; the Timestamp field, a wall-clock read, is not
modelled). -/
structure RepoUpdate where
  repository : String
  branch : String
  commitHash : String
  deriving DecidableEq

/-- Scheduler.runCheck (scheduler.go lines 96-159).  checkErr is the error
returned by CheckAndUpdateRepoBranch for each branch (none = nil), hashFor
the result of GetLastCommitHash (none = error, replaced by "unknown").  The
code appends a branch to updatedBranches whenever checkErr is none, sends no
notification when that list is empty, and otherwise sends one payload with
event "repository_update" and one repoUpdates entry per listed branch. -/
def runCheck (branches : List String) (mainRepoURL : String)
    (checkErr : String → Option String) (hashFor : String → Option String) :
    Option (String × List (String × RepoUpdate)) :=
  let updatedBranches := branches.filter (fun b => (checkErr b).isNone)
  if updatedBranches = [] then none
  else
    some ("repository_update",
      updatedBranches.foldl
        (fun acc b => setKey acc b
          { repository := mainRepoURL, branch := b,
            commitHash := (hashFor b).getD "unknown" }) [])

/-- Truncation to a 32-bit word. -/
def w32 (n : Nat) : Nat := n % 4294967296

/-- Right rotation of a 32-bit word. -/
def rotr32 (n x : Nat) : Nat := w32 ((x >>> n) ||| (x <<< (32 - n)))

/-- Upper-case sigma-0 function of FIPS 180-4. -/
def bigSigma0 (x : Nat) : Nat := rotr32 2 x ^^^ rotr32 13 x ^^^ rotr32 22 x

/-- Upper-case sigma-1 function of FIPS 180-4. -/
def bigSigma1 (x : Nat) : Nat := rotr32 6 x ^^^ rotr32 11 x ^^^ rotr32 25 x

/-- Lower-case sigma-0 function of FIPS 180-4. -/
def smallSigma0 (x : Nat) : Nat := rotr32 7 x ^^^ rotr32 18 x ^^^ (x >>> 3)

/-- Lower-case sigma-1 function of FIPS 180-4. -/
def smallSigma1 (x : Nat) : Nat := rotr32 17 x ^^^ rotr32 19 x ^^^ (x >>> 10)

/-- Round constants of FIPS 180-4 section 4.2.2 (the first 32 bits of the
fractional parts of the cube roots of the first 64 primes), in decimal. -/
def sha256K : List Nat :=
  [1116352408, 1899447441, 3049323471, 3921009573, 961987163, 1508970993,
   2453635748, 2870763221, 3624381080, 310598401, 607225278, 1426881987,
   1925078388, 2162078206, 2614888103, 3248222580, 3835390401, 4022224774,
   264347078, 604807628, 770255983, 1249150122, 1555081692, 1996064986,
   2554220882, 2821834349, 2952996808, 3210313671, 3336571891, 3584528711,
   113926993, 338241895, 666307205, 773529912, 1294757372, 1396182291,
   1695183700, 1986661051, 2177026350, 2456956037, 2730485921, 2820302411,
   3259730800, 3345764771, 3516065817, 3600352804, 4094571909, 275423344,
   430227734, 506948616, 659060556, 883997877, 958139571, 1322822218,
   1537002063, 1747873779, 1955562222, 2024104815, 2227730452, 2361852424,
   2428436474, 2756734187, 3204031479, 3329325298]

/-- Initial hash value of FIPS 180-4 section 5.3.3 (the first 32 bits of the
fractional parts of the square roots of the first 8 primes), in decimal. -/
def sha256H0 : List Nat :=
  [1779033703, 3144134277, 1013904242, 2773480762,
   1359893119, 2600822924, 528734635, 1541459225]

/-- Big-endian byte decomposition of a number into k bytes. -/
def beBytes (k n : Nat) : List Nat :=
  (List.range k).map (fun i => (n >>> (8 * (k - 1 - i))) % 256)

/-- Message padding of FIPS 180-4 section 5.1.1. -/
def sha256Pad (msg : List Nat) : List Nat :=
  msg ++ 0x80 :: List.replicate ((120 - ((msg.length + 1) % 64)) % 64) 0 ++
    beBytes 8 (8 * msg.length)

/-- Group bytes into big-endian 32-bit words. -/
def bytesToWords : List Nat → List Nat
  | b0 :: b1 :: b2 :: b3 :: rest =>
      (((b0 * 256 + b1) * 256 + b2) * 256 + b3) :: bytesToWords rest
  | _ => []

/-- Group a word sequence into 16-word blocks. -/
def chunk16 : List Nat → List (List Nat)
  | a0::a1::a2::a3::a4::a5::a6::a7::a8::a9::a10::a11::a12::a13::a14::a15 :: rest =>
      [a0, a1, a2, a3, a4, a5, a6, a7, a8, a9, a10, a11, a12, a13, a14, a15] :: chunk16 rest
  | _ => []

/-- Message-schedule expansion of a 16-word block to 64 words (FIPS 180-4
section 6.2.2 step 1). -/
def schedule (block : List Nat) : List Nat :=
  (List.range 48).foldl
    (fun acc _ =>
      acc ++ [w32 (smallSigma1 (acc.get! (acc.length - 2)) + acc.get! (acc.length - 7) +
        smallSigma0 (acc.get! (acc.length - 15)) + acc.get! (acc.length - 16))])
    block

/-- One round of the SHA-256 compression function (FIPS 180-4 section 6.2.2
step 3) on the eight-word working state. -/
def compressRound (state : List Nat) (kw : Nat × Nat) : List Nat :=
  match state with
  | [a, b, c, d, e, f, g, h] =>
      let t1 := w32 (h + bigSigma1 e + ((e &&& f) ^^^ ((0xffffffff ^^^ e) &&& g)) + kw.1 + kw.2)
      let t2 := w32 (bigSigma0 a + ((a &&& b) ^^^ (a &&& c) ^^^ (b &&& c)))
      [w32 (t1 + t2), a, b, c, w32 (d + t1), e, f, g]
  | s => s

/-- Process one block and add the result into the hash state. -/
def sha256Block (h : List Nat) (block : List Nat) : List Nat :=
  let final := (sha256K.zip (schedule block)).foldl compressRound h
  (h.zip final).map (fun p => w32 (p.1 + p.2))

/-- Model of the Go crypto library SHA-256 function used through
crypto/hmac and crypto/sha256 by the webhook package, defined from
FIPS 180-4: bytes in, 32 digest bytes out. -/
def sha256 (msg : List Nat) : List Nat :=
  ((chunk16 (bytesToWords (sha256Pad msg))).foldl sha256Block sha256H0).foldr
    (fun w acc => beBytes 4 w ++ acc) []

/-- Model of Go crypto/hmac instantiated with SHA-256 (RFC 2104): the keyed
digest computed by hmac.New(sha256.New, secret) over the written bytes. -/
def hmacSha256 (key msg : List Nat) : List Nat :=
  let k0 := if 64 < key.length then sha256 key else key
  let kpad := k0 ++ List.replicate (64 - k0.length) 0
  sha256 ((kpad.map (fun b => b ^^^ 0x5c)) ++ sha256 ((kpad.map (fun b => b ^^^ 0x36)) ++ msg))

/-- Lower-case hexadecimal digit, as produced by Go encoding/hex. -/
def hexDigit (n : Nat) : Char :=
  if n < 10 then Char.ofNat (48 + n) else Char.ofNat (87 + n)

/-- Model of Go hex.EncodeToString. -/
def hexEncode (bytes : List Nat) : String :=
  String.mk (bytes.foldr (fun b acc => hexDigit (b / 16) :: hexDigit (b % 16) :: acc) [])

/-- Byte values of an ASCII string, for concrete secrets and bodies. -/
def asciiBytes (s : String) : List Nat := s.data.map Char.toNat

/-- generateSignature (webhook.go lines 150-154): the hex digest of the
HMAC-SHA256 of the payload bytes under the secret key. -/
def generateSignature (payload secret : List Nat) : String :=
  hexEncode (hmacSha256 secret payload)

/-- Parsed trigger payload (webhook.go WebhookTriggerRequest). -/
structure WebhookTriggerRequest where
  event : String
  branch : String
  reference : String
  deriving DecidableEq

/-- Failure cases of ValidateWebhook. -/
inductive WebhookError where
  | missingSignature
  | invalidSignature
  | unmarshalFailed
  deriving DecidableEq

/-- Branch extraction at the end of ValidateWebhook (webhook.go lines
137-144): when branch is absent and the reference splits on "/" into at
least three fields with the first two "refs" and "heads", the branch is set
to the THIRD field only. -/
def extractBranch (p : WebhookTriggerRequest) : WebhookTriggerRequest :=
  if p.branch = "" ∧ p.reference ≠ "" then
    match splitSep '/' p.reference.data with
    | a :: b :: name :: _ =>
        if a = "refs".data ∧ b = "heads".data then { p with branch := String.mk name }
        else p
    | _ => p
  else p

/-- ValidateWebhook (webhook.go lines 103-147).  secret is the configured
webhook secret as bytes (empty list = not configured), signatureHeader the
X-Webhook-Signature header value, body the raw request-body bytes, and
unmarshal the JSON decoding of the body into the trigger structure (none =
decode error).  When a secret is configured the signature is compared with
generateSignature over the exact body bytes before unmarshal is consulted. -/
def ValidateWebhook (secret : List Nat) (signatureHeader : String) (body : List Nat)
    (unmarshal : List Nat → Option WebhookTriggerRequest) :
    Except WebhookError WebhookTriggerRequest :=
  if secret ≠ [] then
    if signatureHeader = "" then Except.error WebhookError.missingSignature
    else if signatureHeader ≠ generateSignature body secret then
      Except.error WebhookError.invalidSignature
    else
      match unmarshal body with
      | none => Except.error WebhookError.unmarshalFailed
      | some p => Except.ok (extractBranch p)
  else
    match unmarshal body with
    | none => Except.error WebhookError.unmarshalFailed
    | some p => Except.ok (extractBranch p)

/-- State of the two-caller interleaving model of UpdateArtifactsRepo.  Each
program counter tracks one caller through the sequence
  Lock gitOpLock; body step 1; ...; body step n; deferred Unlock
taken from git.go lines 565-567 (the lock is acquired on entry and released
by defer on every return path, so the whole body is the critical section):
pc = 0 before the Lock call, 1 <= pc <= n before body step pc, pc = n + 1
before the deferred Unlock, pc = n + 2 when the call has returned.  holder
records which caller currently holds Manager.gitOpLock. -/
structure LockState where
  pc0 : Nat
  pc1 : Nat
  holder : Option Bool
  deriving DecidableEq

/-- Both callers start before their Lock call and the mutex is free. -/
def initLockState : LockState := { pc0 := 0, pc1 := 0, holder := none }

/-- One step of one caller (tid = false for the first caller, true for the
second) whose critical section has n body steps.  Taking the mutex blocks
(no step) while the other caller holds it; body steps and the deferred
unlock always proceed; a finished caller has no step.  Returns the new state
and whether the executed step was a body step. -/
def stepThread (n : Nat) (tid : Bool) (s : LockState) : Option (LockState × Bool) :=
  match tid with
  | false =>
      if s.pc0 = 0 then
        match s.holder with
        | none => some ({ s with holder := some false, pc0 := 1 }, false)
        | some _ => none
      else if s.pc0 ≤ n then some ({ s with pc0 := s.pc0 + 1 }, true)
      else if s.pc0 = n + 1 then some ({ s with holder := none, pc0 := s.pc0 + 1 }, false)
      else none
  | true =>
      if s.pc1 = 0 then
        match s.holder with
        | none => some ({ s with holder := some true, pc1 := 1 }, false)
        | some _ => none
      else if s.pc1 ≤ n then some ({ s with pc1 := s.pc1 + 1 }, true)
      else if s.pc1 = n + 1 then some ({ s with holder := none, pc1 := s.pc1 + 1 }, false)
      else none

/-- Run a schedule: each entry names the caller that takes its next step,
which must be enabled.  n0 and n1 are the body lengths of the two
invocations.  Returns the final state and the trace recording, in order,
which caller performed each body step. -/
def runSchedule (n0 n1 : Nat) : LockState → List Bool → Option (LockState × List Bool)
  | s, [] => some (s, [])
  | s, tid :: rest =>
      match stepThread (if tid then n1 else n0) tid s with
      | none => none
      | some (s', isBody) =>
          match runSchedule n0 n1 s' rest with
          | none => none
          | some (sf, tr) => some (sf, (if isBody then [tid] else []) ++ tr)

/-- Number of body steps a caller with body length n has completed at
program counter pc. -/
def bodyCount (n pc : Nat) : Nat := min n (pc - 1)

/-- Test for a rename step in a publication trace. -/
def isRename : PubStep → Bool
  | PubStep.fsRename _ _ => true
  | _ => false

/-- Test for a file-write step in a publication trace. -/
def isWrite : PubStep → Bool
  | PubStep.fsWrite _ _ => true
  | _ => false

def lockInv (n0 n1 : Nat) (s : LockState) (tr : List Bool) : Prop :=
  (s.holder = some false → 1 ≤ s.pc0 ∧ s.pc0 ≤ n0 + 1) ∧
  (s.holder = some true → 1 ≤ s.pc1 ∧ s.pc1 ≤ n1 + 1) ∧
  ((1 ≤ s.pc0 ∧ s.pc0 ≤ n0 + 1) → s.holder = some false) ∧
  ((1 ≤ s.pc1 ∧ s.pc1 ≤ n1 + 1) → s.holder = some true) ∧
  ((tr = List.replicate (bodyCount n0 s.pc0) false ++ List.replicate (bodyCount n1 s.pc1) true ∧
      (0 < bodyCount n1 s.pc1 → bodyCount n0 s.pc0 = n0)) ∨
   (tr = List.replicate (bodyCount n1 s.pc1) true ++ List.replicate (bodyCount n0 s.pc0) false ∧
      (0 < bodyCount n0 s.pc0 → bodyCount n1 s.pc1 = n1)))

theorem lookupKey_setKey_self {α : Type} (l : List (String × α)) (k : String) (v : α) :
    lookupKey (setKey l k v) k = some v := by
  induction l with
  | nil => simp [setKey, lookupKey]
  | cons hd tl ih =>
      obtain ⟨k', v'⟩ := hd
      by_cases h : k' = k
      · simp [setKey, lookupKey, h]
      · simp [setKey, lookupKey, h, ih]

theorem lookupKey_setKey_ne {α : Type} (l : List (String × α)) (k k' : String) (v : α)
    (h : k' ≠ k) : lookupKey (setKey l k v) k' = lookupKey l k' := by
  have hk : k ≠ k' := Ne.symm h
  induction l with
  | nil => simp [setKey, lookupKey, hk]
  | cons hd tl ih =>
      rcases hd with ⟨k0, v0⟩
      by_cases h0 : k0 = k
      · subst h0
        simp [setKey, lookupKey, hk]
      · simp only [setKey, if_neg h0, lookupKey]
        by_cases h1 : k0 = k'
        · simp [h1]
        · simp [h1, ih]

theorem setKey_map_fst {α : Type} (l : List (String × α)) (k : String) (v : α) :
    (setKey l k v).map Prod.fst = if k ∈ l.map Prod.fst then l.map Prod.fst
      else l.map Prod.fst ++ [k] := by
  induction l with
  | nil => simp [setKey]
  | cons hd tl ih =>
      rcases hd with ⟨k0, v0⟩
      by_cases h0 : k0 = k
      · subst h0
        simp [setKey]
      · have hne : k ≠ k0 := Ne.symm h0
        simp only [setKey, if_neg h0, List.map_cons, ih]
        by_cases hmem : k ∈ tl.map Prod.fst
        · simp [hmem, hne]
        · simp [hmem, hne]

theorem keysNodup_setKey {α : Type} (l : List (String × α)) (k : String) (v : α)
    (h : (l.map Prod.fst).Nodup) : ((setKey l k v).map Prod.fst).Nodup := by
  rw [setKey_map_fst]
  by_cases hmem : k ∈ l.map Prod.fst
  · simpa [hmem] using h
  · simp only [hmem, if_false]
    refine List.Nodup.append h (by simp) ?_
    intro a ha hb
    simp only [List.mem_singleton] at hb
    subst hb
    exact hmem ha

theorem mem_setKey {α : Type} (l : List (String × α)) (k : String) (v : α) (x : String × α) :
    x ∈ setKey l k v → x = (k, v) ∨ x ∈ l := by
  induction l with
  | nil =>
      intro hx
      simpa [setKey] using hx
  | cons hd tl ih =>
      rcases hd with ⟨k0, v0⟩
      intro hx
      by_cases h0 : k0 = k
      · subst h0
        simp only [setKey, if_pos] at hx
        rcases List.mem_cons.mp hx with hx | hx
        · exact Or.inl hx
        · exact Or.inr (List.mem_cons_of_mem _ hx)
      · simp only [setKey, if_neg h0, List.mem_cons] at hx
        rcases hx with hx | hx
        · exact Or.inr (by simp [hx])
        · rcases ih hx with h | h
          · exact Or.inl h
          · exact Or.inr (List.mem_cons_of_mem _ h)

theorem splitSep_ne_nil (sep : Char) (l : List Char) : splitSep sep l ≠ [] := by
  cases l with
  | nil => simp [splitSep]
  | cons c rest =>
      simp only [splitSep]
      cases h : splitSep sep rest with
      | nil => simp
      | cons s ss =>
          by_cases hc : c = sep <;> simp [hc]

theorem splitSep_no_sep (sep : Char) (l : List Char) (h : sep ∉ l) :
    splitSep sep l = [l] := by
  induction l with
  | nil => simp [splitSep]
  | cons c rest ih =>
      have hc : c ≠ sep := fun hh => h (by simp [hh])
      have hrest : sep ∉ rest := fun hh => h (List.mem_cons_of_mem _ hh)
      simp [splitSep, ih hrest, hc]

theorem splitSep_append_sep (sep : Char) (a b : List Char) (ha : sep ∉ a) :
    splitSep sep (a ++ sep :: b) = a :: splitSep sep b := by
  induction a with
  | nil =>
      simp only [List.nil_append, splitSep]
      cases h : splitSep sep b with
      | nil => exact absurd h (splitSep_ne_nil sep b)
      | cons s ss => simp
  | cons c rest ih =>
      have hc : c ≠ sep := fun hh => ha (by simp [hh])
      have hrest : sep ∉ rest := fun hh => ha (List.mem_cons_of_mem _ hh)
      rw [List.cons_append, splitSep, ih hrest]
      simp [hc]

theorem joinSep_splitSep (sep : Char) (l : List Char) :
    joinSep sep (splitSep sep l) = l := by
  induction l with
  | nil => simp [splitSep, joinSep]
  | cons c rest ih =>
      simp only [splitSep]
      cases h : splitSep sep rest with
      | nil => exact absurd h (splitSep_ne_nil sep rest)
      | cons s ss =>
          rw [h] at ih
          by_cases hc : c = sep
          · subst hc
            cases ss with
            | nil => simpa [joinSep] using ih
            | cons t ts => simpa [joinSep] using ih
          · cases ss with
            | nil => simpa [joinSep, hc] using ih
            | cons t ts => simpa [joinSep, hc] using ih

theorem lookupKey_mem {α : Type} (l : List (String × α)) (k : String) (v : α) :
    lookupKey l k = some v → (k, v) ∈ l := by
  induction l with
  | nil =>
      intro h
      simp [lookupKey] at h
  | cons hd tl ih =>
      rcases hd with ⟨k0, v0⟩
      intro h
      by_cases h0 : k0 = k
      · subst h0
        simp only [lookupKey, if_pos] at h
        have hv : v0 = v := Option.some.inj h
        subst hv
        exact List.mem_cons_self _ _
      · simp only [lookupKey, if_neg h0] at h
        exact List.mem_cons_of_mem _ (ih h)

theorem splitSep_append_last (sep : Char) (a b : List Char) (hb : sep ∉ b) :
    splitSep sep (a ++ sep :: b) = splitSep sep a ++ [b] := by
  induction a with
  | nil => simp [splitSep, splitSep_no_sep sep b hb]
  | cons c rest ih =>
      rw [List.cons_append, splitSep, ih, splitSep]
      cases h : splitSep sep rest with
      | nil => exact absurd h (splitSep_ne_nil sep rest)
      | cons s ss =>
          by_cases hc : c = sep <;> simp [hc]

theorem versionFamily_strip_last (a b : List Char) (hb : '-' ∉ b) :
    versionFamily (String.mk (a ++ '-' :: b)) = String.mk a := by
  unfold versionFamily
  have hdata : (String.mk (a ++ '-' :: b)).data = a ++ '-' :: b := rfl
  rw [hdata, splitSep_append_last '-' a b hb, List.dropLast_concat, joinSep_splitSep]

theorem versionFamily_no_dash (v : String) (h : '-' ∉ v.data) : versionFamily v = "" := by
  unfold versionFamily
  rw [splitSep_no_sep '-' v.data h]
  rfl

theorem docWF_inner {d : Document} (h : docWF d) (r : String) :
    keysNodup ((lookupKey d r).getD []) ∧
      ∀ y ∈ (lookupKey d r).getD [], keysNodup y.2 := by
  cases hl : lookupKey d r with
  | none => simp [keysNodup]
  | some m =>
      have hm := h.2 (r, m) (lookupKey_mem _ _ _ hl)
      simpa using hm

theorem keysNodup_lookup_getD {α : Type} (l : List (String × List (String × α)))
    (k : String) (h : ∀ y ∈ l, keysNodup y.2) :
    keysNodup ((lookupKey l k).getD []) := by
  cases hl : lookupKey l k with
  | none => simp [keysNodup]
  | some m => simpa using h (k, m) (lookupKey_mem _ _ _ hl)

theorem docWF_publishDoc (file : Option Document) (r p v : String)
    (h : docWF (file.getD [])) : docWF (publishDoc file r p v) := by
  by_cases hc :
      lookupKey ((lookupKey ((lookupKey (file.getD []) r).getD []) p).getD [])
        (versionFamily v) = some v
  · simpa [publishDoc, UpdateArtifactsRepo, hc] using h
  · simp only [publishDoc, UpdateArtifactsRepo, hc, if_neg, if_false]
    have hrc := docWF_inner h r
    have hpc : keysNodup ((lookupKey ((lookupKey (file.getD []) r).getD []) p).getD []) :=
      keysNodup_lookup_getD _ p hrc.2
    refine ⟨keysNodup_setKey _ _ _ h.1, ?_⟩
    intro x hx
    rcases mem_setKey _ _ _ _ hx with hx | hx
    · subst hx
      refine ⟨keysNodup_setKey _ _ _ hrc.1, ?_⟩
      intro y hy
      rcases mem_setKey _ _ _ _ hy with hy | hy
      · subst hy
        exact keysNodup_setKey _ _ _ hpc
      · exact hrc.2 y hy
    · exact h.2 x hx

theorem docWF_applyPublishes (calls : List (String × String × String))
    (file : Option Document) (h : docWF (file.getD [])) :
    docWF (applyPublishes file calls) := by
  induction calls generalizing file with
  | nil => exact h
  | cons c rest ih =>
      rcases c with ⟨r, p, v⟩
      exact ih (some (publishDoc file r p v)) (by simpa using docWF_publishDoc file r p v h)

theorem docLookup_publishDoc_self (file : Option Document) (r p v : String) :
    docLookup (publishDoc file r p v) r p (versionFamily v) = some v := by
  by_cases hc :
      lookupKey ((lookupKey ((lookupKey (file.getD []) r).getD []) p).getD [])
        (versionFamily v) = some v
  · simp [publishDoc, UpdateArtifactsRepo, docLookup, hc]
  · simp [publishDoc, UpdateArtifactsRepo, docLookup, hc, lookupKey_setKey_self]

theorem docLookup_publishDoc_ne (file : Option Document) (r p v k : String)
    (h : k ≠ versionFamily v) :
    docLookup (publishDoc file r p v) r p k = docLookup (file.getD []) r p k := by
  by_cases hc :
      lookupKey ((lookupKey ((lookupKey (file.getD []) r).getD []) p).getD [])
        (versionFamily v) = some v
  · simp [publishDoc, UpdateArtifactsRepo, docLookup, hc]
  · simp [publishDoc, UpdateArtifactsRepo, docLookup, hc, lookupKey_setKey_self,
      lookupKey_setKey_ne _ _ _ _ h]

theorem bodyCount_lock (n : Nat) : bodyCount n 1 = bodyCount n 0 := by
  unfold bodyCount
  omega

theorem bodyCount_body (n pc : Nat) (h1 : 1 ≤ pc) (h2 : pc ≤ n) :
    bodyCount n (pc + 1) = bodyCount n pc + 1 := by
  unfold bodyCount
  omega

theorem bodyCount_unlock (n : Nat) : bodyCount n (n + 1 + 1) = bodyCount n (n + 1) := by
  unfold bodyCount
  omega

theorem bodyCount_outside (n pc : Nat) (h : ¬ (1 ≤ pc ∧ pc ≤ n + 1)) :
    bodyCount n pc = 0 ∨ bodyCount n pc = n := by
  unfold bodyCount
  omega

theorem lockInv_init (n0 n1 : Nat) : lockInv n0 n1 initLockState [] := by
  refine ⟨?_, ?_, ?_, ?_, Or.inl ⟨?_, ?_⟩⟩
  · intro h
    simp [initLockState] at h
  · intro h
    simp [initLockState] at h
  · intro h
    simp [initLockState] at h
  · intro h
    simp [initLockState] at h
  · simp [initLockState, bodyCount]
  · intro h
    simp [initLockState, bodyCount] at h

theorem lockInv_step (n0 n1 : Nat) (s s' : LockState) (tr : List Bool) (tid isBody : Bool)
    (hinv : lockInv n0 n1 s tr)
    (hstep : stepThread (if tid then n1 else n0) tid s = some (s', isBody)) :
    lockInv n0 n1 s' (tr ++ if isBody then [tid] else []) := by
  obtain ⟨h0, h1, h2, h3, htr⟩ := hinv
  cases tid
  case false =>
    simp only [Bool.false_eq_true, if_false, stepThread] at hstep
    by_cases hpc : s.pc0 = 0
    · rw [if_pos hpc] at hstep
      cases hh : s.holder with
      | some t =>
          rw [hh] at hstep
          simp at hstep
      | none =>
          rw [hh] at hstep
          simp only [Option.some.injEq, Prod.mk.injEq] at hstep
          obtain ⟨hs', hb⟩ := hstep
          subst hs' hb
          refine ⟨?_, ?_, ?_, ?_, ?_⟩
          · intro _
            exact ⟨Nat.le_refl 1, Nat.le_add_left 1 n0⟩
          · intro h
            simp at h
          · intro _
            rfl
          · intro hin
            simp only at hin
            exact absurd (h3 hin) (by simp [hh])
          · simp only [Bool.false_eq_true, if_false, List.append_nil, bodyCount_lock]
            rw [hpc] at htr
            exact htr
    · rw [if_neg hpc] at hstep
      by_cases hle : s.pc0 ≤ n0
      · rw [if_pos hle] at hstep
        simp only [Option.some.injEq, Prod.mk.injEq] at hstep
        obtain ⟨hs', hb⟩ := hstep
        subst hs' hb
        have hin0 : 1 ≤ s.pc0 ∧ s.pc0 ≤ n0 + 1 := ⟨by omega, by omega⟩
        have hhold : s.holder = some false := h2 hin0
        have hnot1 : ¬ (1 ≤ s.pc1 ∧ s.pc1 ≤ n1 + 1) := by
          intro hin
          have := h3 hin
          rw [hhold] at this
          simp at this
        have hbc : bodyCount n0 (s.pc0 + 1) = bodyCount n0 s.pc0 + 1 :=
          bodyCount_body n0 s.pc0 (by omega) hle
        refine ⟨?_, ?_, ?_, ?_, ?_⟩
        · intro _
          simp
          omega
        · intro h
          rw [hhold] at h
          simp at h
        · intro _
          exact hhold
        · intro hin
          simp only at hin
          exact absurd hin hnot1
        · simp only [hbc]
          rcases bodyCount_outside n1 s.pc1 hnot1 with hz | hn
          · -- thread 1 has no body steps yet: stay or move to the left form
            rcases htr with ⟨ht, _⟩ | ⟨ht, _⟩
            · left
              constructor
              · rw [ht, hz]
                simp [List.replicate_succ']
              · intro h
                rw [hz] at h
                omega
            · left
              constructor
              · rw [ht, hz]
                simp [List.replicate_succ']
              · intro h
                rw [hz] at h
                omega
          · -- thread 1 already ran all its body steps: right form
            by_cases hn1 : n1 = 0
            · rcases htr with ⟨ht, _⟩ | ⟨ht, _⟩
              · left
                refine ⟨?_, ?_⟩
                · rw [ht, hn, hn1]
                  simp [List.replicate_succ']
                · intro h
                  rw [hn, hn1] at h
                  omega
              · left
                refine ⟨?_, ?_⟩
                · rw [ht, hn, hn1]
                  simp [List.replicate_succ']
                · intro h
                  rw [hn, hn1] at h
                  omega
            · rcases htr with ⟨ht, hc⟩ | ⟨ht, hc⟩
              · exfalso
                have : bodyCount n0 s.pc0 = n0 := hc (by omega)
                unfold bodyCount at this
                omega
              · right
                refine ⟨?_, fun _ => hn⟩
                rw [ht]
                rw [List.append_assoc]
                congr 1
                simp [List.replicate_succ']
      · rw [if_neg hle] at hstep
        by_cases heq : s.pc0 = n0 + 1
        · rw [if_pos heq] at hstep
          simp only [Option.some.injEq, Prod.mk.injEq] at hstep
          obtain ⟨hs', hb⟩ := hstep
          subst hs' hb
          have hin0 : 1 ≤ s.pc0 ∧ s.pc0 ≤ n0 + 1 := ⟨by omega, by omega⟩
          have hhold : s.holder = some false := h2 hin0
          refine ⟨?_, ?_, ?_, ?_, ?_⟩
          · intro h
            simp at h
          · intro h
            simp at h
          · intro h
            simp only at h
            omega
          · intro hin
            simp only at hin
            have := h3 hin
            rw [hhold] at this
            simp at this
          · simp only [Bool.false_eq_true, if_false, List.append_nil, heq, bodyCount_unlock]
            rw [heq] at htr
            exact htr
        · rw [if_neg heq] at hstep
          simp at hstep
  case true =>
    simp only [if_pos, stepThread] at hstep
    by_cases hpc : s.pc1 = 0
    · rw [if_pos hpc] at hstep
      cases hh : s.holder with
      | some t =>
          rw [hh] at hstep
          simp at hstep
      | none =>
          rw [hh] at hstep
          simp only [Option.some.injEq, Prod.mk.injEq] at hstep
          obtain ⟨hs', hb⟩ := hstep
          subst hs' hb
          refine ⟨?_, ?_, ?_, ?_, ?_⟩
          · intro h
            simp at h
          · intro _
            exact ⟨Nat.le_refl 1, Nat.le_add_left 1 n1⟩
          · intro hin
            simp only at hin
            exact absurd (h2 hin) (by simp [hh])
          · intro _
            rfl
          · simp only [Bool.false_eq_true, if_false, List.append_nil, bodyCount_lock]
            rw [hpc] at htr
            exact htr
    · rw [if_neg hpc] at hstep
      by_cases hle : s.pc1 ≤ n1
      · rw [if_pos hle] at hstep
        simp only [Option.some.injEq, Prod.mk.injEq] at hstep
        obtain ⟨hs', hb⟩ := hstep
        subst hs' hb
        have hin1 : 1 ≤ s.pc1 ∧ s.pc1 ≤ n1 + 1 := ⟨by omega, by omega⟩
        have hhold : s.holder = some true := h3 hin1
        have hnot0 : ¬ (1 ≤ s.pc0 ∧ s.pc0 ≤ n0 + 1) := by
          intro hin
          have := h2 hin
          rw [hhold] at this
          simp at this
        have hbc : bodyCount n1 (s.pc1 + 1) = bodyCount n1 s.pc1 + 1 :=
          bodyCount_body n1 s.pc1 (by omega) hle
        refine ⟨?_, ?_, ?_, ?_, ?_⟩
        · intro h
          rw [hhold] at h
          simp at h
        · intro _
          simp only
          omega
        · intro hin
          simp only at hin
          exact absurd hin hnot0
        · intro _
          exact hhold
        · simp only [hbc]
          rcases bodyCount_outside n0 s.pc0 hnot0 with hz | hn
          · rcases htr with ⟨ht, _⟩ | ⟨ht, _⟩
            · right
              constructor
              · rw [ht, hz]
                simp [List.replicate_succ']
              · intro h
                rw [hz] at h
                omega
            · right
              constructor
              · rw [ht, hz]
                simp [List.replicate_succ']
              · intro h
                rw [hz] at h
                omega
          · by_cases hn0 : n0 = 0
            · rcases htr with ⟨ht, _⟩ | ⟨ht, _⟩
              · right
                refine ⟨?_, ?_⟩
                · rw [ht, hn, hn0]
                  simp [List.replicate_succ']
                · intro h
                  rw [hn, hn0] at h
                  omega
              · right
                refine ⟨?_, ?_⟩
                · rw [ht, hn, hn0]
                  simp [List.replicate_succ']
                · intro h
                  rw [hn, hn0] at h
                  omega
            · rcases htr with ⟨ht, hc⟩ | ⟨ht, hc⟩
              · left
                refine ⟨?_, fun _ => hn⟩
                rw [ht]
                rw [List.append_assoc]
                congr 1
                simp [List.replicate_succ']
              · exfalso
                have : bodyCount n1 s.pc1 = n1 := hc (by omega)
                unfold bodyCount at this
                omega
      · rw [if_neg hle] at hstep
        by_cases heq : s.pc1 = n1 + 1
        · rw [if_pos heq] at hstep
          simp only [Option.some.injEq, Prod.mk.injEq] at hstep
          obtain ⟨hs', hb⟩ := hstep
          subst hs' hb
          have hin1 : 1 ≤ s.pc1 ∧ s.pc1 ≤ n1 + 1 := ⟨by omega, by omega⟩
          have hhold : s.holder = some true := h3 hin1
          refine ⟨?_, ?_, ?_, ?_, ?_⟩
          · intro h
            simp at h
          · intro h
            simp at h
          · intro hin
            simp only at hin
            have := h2 hin
            rw [hhold] at this
            simp at this
          · intro h
            simp only at h
            omega
          · simp only [Bool.false_eq_true, if_false, List.append_nil, heq, bodyCount_unlock]
            rw [heq] at htr
            exact htr
        · rw [if_neg heq] at hstep
          simp at hstep

theorem lockInv_run (n0 n1 : Nat) (sched : List Bool) (s : LockState) (tr0 : List Bool)
    (hinv : lockInv n0 n1 s tr0) (sf : LockState) (tr : List Bool)
    (hrun : runSchedule n0 n1 s sched = some (sf, tr)) :
    lockInv n0 n1 sf (tr0 ++ tr) := by
  induction sched generalizing s tr0 sf tr with
  | nil =>
      simp only [runSchedule, Option.some.injEq, Prod.mk.injEq] at hrun
      obtain ⟨h1, h2⟩ := hrun
      subst h1
      subst h2
      simpa using hinv
  | cons tid rest ih =>
      simp only [runSchedule] at hrun
      cases hstep : stepThread (if tid then n1 else n0) tid s with
      | none =>
          rw [hstep] at hrun
          simp at hrun
      | some res =>
          rcases res with ⟨s', isBody⟩
          rw [hstep] at hrun
          dsimp only at hrun
          cases hrec : runSchedule n0 n1 s' rest with
          | none =>
              rw [hrec] at hrun
              simp at hrun
          | some resf =>
              rcases resf with ⟨sf', tr'⟩
              rw [hrec] at hrun
              simp only [Option.some.injEq, Prod.mk.injEq] at hrun
              obtain ⟨h1, h2⟩ := hrun
              subst h1
              subst h2
              have hinv' := lockInv_step n0 n1 s s' tr0 tid isBody hinv hstep
              have hres := ih s' (tr0 ++ if isBody then [tid] else []) hinv' sf' tr' hrec
              simpa [List.append_assoc] using hres

theorem mutex_trace (n0 n1 : Nat) (sched : List Bool) (sf : LockState) (tr : List Bool)
    (hrun : runSchedule n0 n1 initLockState sched = some (sf, tr))
    (hdone0 : sf.pc0 = n0 + 2) (hdone1 : sf.pc1 = n1 + 2) :
    tr = List.replicate n0 false ++ List.replicate n1 true ∨
    tr = List.replicate n1 true ++ List.replicate n0 false := by
  have h := lockInv_run n0 n1 sched initLockState [] (lockInv_init n0 n1) sf tr hrun
  simp only [List.nil_append] at h
  obtain ⟨-, -, -, -, htr⟩ := h
  have e0 : bodyCount n0 (n0 + 2) = n0 := by
    unfold bodyCount
    omega
  have e1 : bodyCount n1 (n1 + 2) = n1 := by
    unfold bodyCount
    omega
  rw [hdone0, hdone1, e0, e1] at htr
  rcases htr with ⟨ht, _⟩ | ⟨ht, _⟩
  · exact Or.inl ht
  · exact Or.inr ht

theorem splitSep_head (sep : Char) (l : List Char) :
    ∃ rest, splitSep sep l = (l.takeWhile (fun c => c != sep)) :: rest := by
  induction l with
  | nil => exact ⟨[], rfl⟩
  | cons c cs ih =>
      rcases ih with ⟨rest, hrest⟩
      by_cases hc : c = sep
      · refine ⟨(cs.takeWhile (fun x => x != sep)) :: rest, ?_⟩
        rw [splitSep, hrest]
        simp [hc]
      · refine ⟨rest, ?_⟩
        rw [splitSep, hrest]
        simp [hc]

/-- C1: if the stored artifact document already maps
document[repoName][pkgName][versionFamily version] to exactly version, then
UpdateArtifactsRepo returns success with the document unchanged and performs
no file write, stage, commit, push or merge step; in particular a second
publish of the same (repo, package, version) right after a successful first
one is such a no-op. -/
theorem C1_second_publish_is_noop :
    (∀ (file : Option Document) (repoName pkgName version : String) (statusDirty : Bool),
      docLookup (file.getD []) repoName pkgName (versionFamily version) = some version →
      UpdateArtifactsRepo file repoName pkgName version statusDirty =
        { newFile := file.getD [], alreadyPublished := true, steps := [] }) ∧
    (∀ (file : Option Document) (repoName pkgName version : String) (statusDirty : Bool),
      UpdateArtifactsRepo (some (publishDoc file repoName pkgName version))
          repoName pkgName version statusDirty =
        { newFile := publishDoc file repoName pkgName version,
          alreadyPublished := true, steps := [] }) := by
  have main : ∀ (file : Option Document) (repoName pkgName version : String)
      (statusDirty : Bool),
      docLookup (file.getD []) repoName pkgName (versionFamily version) = some version →
      UpdateArtifactsRepo file repoName pkgName version statusDirty =
        { newFile := file.getD [], alreadyPublished := true, steps := [] } := by
    intro file repoName pkgName version statusDirty h
    unfold docLookup at h
    simp [UpdateArtifactsRepo, h]
  refine ⟨main, ?_⟩
  intro file repoName pkgName version statusDirty
  have h := docLookup_publishDoc_self file repoName pkgName version
  have := main (some (publishDoc file repoName pkgName version)) repoName pkgName version
    statusDirty (by simpa using h)
  simpa using this

theorem C1_witness :
    UpdateArtifactsRepo (some [("repo", [("pkg", [("1.2.0", "1.2.0-9")])])])
        "repo" "pkg" "1.2.0-9" true =
      { newFile := [("repo", [("pkg", [("1.2.0", "1.2.0-9")])])],
        alreadyPublished := true, steps := [] } :=
  C1_second_publish_is_noop.1 (some [("repo", [("pkg", [("1.2.0", "1.2.0-9")])])])
    "repo" "pkg" "1.2.0-9" true (by decide)

/-- C2: well-formedness (at most one stored version per (repo, package,
family) triple) is preserved by every sequence of UpdateArtifactsRepo calls,
and publishing 1.2.0-9 then 1.2.0-10 for the same repo and package leaves
exactly one entry for family 1.2.0 holding the newer version. -/
theorem C2_one_version_per_family :
    (∀ (calls : List (String × String × String)) (file : Option Document),
        docWF (file.getD []) → docWF (applyPublishes file calls)) ∧
    applyPublishes none [("repo", "pkg", "1.2.0-9"), ("repo", "pkg", "1.2.0-10")] =
      [("repo", [("pkg", [("1.2.0", "1.2.0-10")])])] :=
  ⟨fun calls file h => docWF_applyPublishes calls file h, by decide⟩

theorem C2_witness :
    docWF (applyPublishes (some [("r0", [("p0", [("1.0", "1.0-1")])])])
      [("repo", "pkg", "2.0-1"), ("repo", "pkg", "2.0-2")]) :=
  C2_one_version_per_family.1 [("repo", "pkg", "2.0-1"), ("repo", "pkg", "2.0-2")]
    (some [("r0", [("p0", [("1.0", "1.0-1")])])]) (by decide)

/-- C3 (counterexample): on a concrete publication the performed trace has a
direct write of the document to the target file and contains no rename step,
so UpdateArtifactsRepo does not write to a separate location and rename. -/
theorem C3_counterexample :
    ((UpdateArtifactsRepo none "repo" "pkg" "1.0-1" true).steps.filter
        (fun s => isRename s) = []) ∧
    (UpdateArtifactsRepo none "repo" "pkg" "1.0-1" true).steps.head? =
      some (PubStep.fsWrite (jsonnetFileName "repo")
        [("repo", [("pkg", [("1.0", "1.0-1")])])]) := by
  decide

/-- C3 (amended): the rewrite of the target file is one in-place whole-file
write: the trace never contains a rename, and its write steps are exactly
one write of the full updated document to the target path when the call is
not an already-published no-op, and none otherwise. -/
theorem C3_in_place_write (file : Option Document) (repoName pkgName version : String)
    (statusDirty : Bool) :
    ((UpdateArtifactsRepo file repoName pkgName version statusDirty).steps.filter
        (fun s => isRename s) = []) ∧
    ((UpdateArtifactsRepo file repoName pkgName version statusDirty).steps.filter
        (fun s => isWrite s) =
      if (UpdateArtifactsRepo file repoName pkgName version statusDirty).alreadyPublished
      then []
      else [PubStep.fsWrite (jsonnetFileName repoName)
        ((UpdateArtifactsRepo file repoName pkgName version statusDirty).newFile)]) := by
  by_cases hc :
      lookupKey ((lookupKey ((lookupKey (file.getD []) repoName).getD []) pkgName).getD [])
        (versionFamily version) = some version
  · simp [UpdateArtifactsRepo, hc, isRename, isWrite]
  · cases statusDirty <;> simp [UpdateArtifactsRepo, hc, isRename, isWrite]

/-- C4: the whole body of UpdateArtifactsRepo runs between taking and
releasing Manager.gitOpLock, so for any two concurrent invocations (any
arguments, also different source repositories) and any schedule that runs
both to completion, the interleaved trace of body steps is one caller's
whole sequence followed by the other's. -/
theorem C4_global_lock_serializes
    (file0 file1 : Option Document) (r0 p0 v0 r1 p1 v1 : String) (d0 d1 : Bool)
    (sched : List Bool) (sf : LockState) (tr : List Bool)
    (hrun : runSchedule (UpdateArtifactsRepo file0 r0 p0 v0 d0).steps.length
        (UpdateArtifactsRepo file1 r1 p1 v1 d1).steps.length initLockState sched =
        some (sf, tr))
    (hdone0 : sf.pc0 = (UpdateArtifactsRepo file0 r0 p0 v0 d0).steps.length + 2)
    (hdone1 : sf.pc1 = (UpdateArtifactsRepo file1 r1 p1 v1 d1).steps.length + 2) :
    tr = List.replicate (UpdateArtifactsRepo file0 r0 p0 v0 d0).steps.length false ++
          List.replicate (UpdateArtifactsRepo file1 r1 p1 v1 d1).steps.length true ∨
    tr = List.replicate (UpdateArtifactsRepo file1 r1 p1 v1 d1).steps.length true ++
          List.replicate (UpdateArtifactsRepo file0 r0 p0 v0 d0).steps.length false :=
  mutex_trace _ _ sched sf tr hrun hdone0 hdone1

theorem C4_witness :
    List.replicate 9 false ++ List.replicate 9 true =
        List.replicate (UpdateArtifactsRepo none "a" "b" "1-2" true).steps.length false ++
          List.replicate (UpdateArtifactsRepo none "a" "b" "1-2" true).steps.length true ∨
    List.replicate 9 false ++ List.replicate 9 true =
        List.replicate (UpdateArtifactsRepo none "a" "b" "1-2" true).steps.length true ++
          List.replicate (UpdateArtifactsRepo none "a" "b" "1-2" true).steps.length false :=
  C4_global_lock_serializes none none "a" "b" "1-2" "a" "b" "1-2" true true
    (List.replicate 11 false ++ List.replicate 11 true)
    { pc0 := 11, pc1 := 11, holder := none }
    (List.replicate 9 false ++ List.replicate 9 true)
    (by decide) (by decide) (by decide)

/-- C5: in a tick where develop has one new remote commit and main is
current, main is only fetched (no checkout or pull) while develop is pulled;
but runCheck adds every branch whose check returned no error to the
notification, so repoUpdates contains an entry for the unchanged main as
well, contrary to the claim that only actually updated branches appear. -/
theorem C5_repoUpdates_includes_unchanged_branch :
    (checkAndUpdateRepo true false = (false, [SyncAction.fetch])) ∧
    (checkAndUpdateRepo true true =
      (true, [SyncAction.fetch, SyncAction.checkout, SyncAction.pull])) ∧
    runCheck ["main", "develop"] "url" (fun _ => none) (fun _ => some "newhead") =
      some ("repository_update",
        [("main", { repository := "url", branch := "main", commitHash := "newhead" }),
         ("develop", { repository := "url", branch := "develop", commitHash := "newhead" })]) := by
  decide

/-- C6 (counterexample): a pass over one submodule whose update and hash
commands both succeed but whose commit did not advance still returns
anyUpdated = true, so anyUpdated is not restricted to passes where some
submodule actually advanced. -/
theorem C6_counterexample :
    (checkAndUpdateSubmodules
      [("sub", { updateOk := true, hashOk := true, advanced := false })]).1 = true ∧
    ∀ x ∈ [("sub", ({ updateOk := true, hashOk := true, advanced := false } : SubmoduleTick))],
      x.2.advanced = false := by
  decide

/-- C6 (amended): a per-submodule failure is skipped and every declared
submodule is still attempted, and anyUpdated is true exactly when the update
and hash commands of at least one submodule both succeeded, regardless of
whether its commit actually advanced. -/
theorem C6_skip_and_continue (subs : List (String × SubmoduleTick)) :
    (checkAndUpdateSubmodules subs).2 = subs.map Prod.fst ∧
    ((checkAndUpdateSubmodules subs).1 = true ↔
      ∃ x ∈ subs, x.2.updateOk = true ∧ x.2.hashOk = true) := by
  induction subs with
  | nil => simp [checkAndUpdateSubmodules]
  | cons hd tl ih =>
      rcases hd with ⟨name, t⟩
      refine ⟨by simp [checkAndUpdateSubmodules, ih.1], ?_⟩
      simp only [checkAndUpdateSubmodules, Bool.or_eq_true, Bool.and_eq_true, ih.2,
        List.mem_cons]
      constructor
      · rintro (⟨hu, hh⟩ | ⟨x, hx, hux, hhx⟩)
        · exact ⟨(name, t), Or.inl rfl, hu, hh⟩
        · exact ⟨x, Or.inr hx, hux, hhx⟩
      · rintro ⟨x, hx | hx, hux, hhx⟩
        · subst hx
          exact Or.inl ⟨hux, hhx⟩
        · exact Or.inr ⟨x, hx, hux, hhx⟩

/-- C7: with a configured secret, the signature a request must carry is the
HMAC-SHA256 hex digest of the exact raw body bytes under the secret
(generateSignature), and a request whose header does not equal that digest
is rejected (missing or invalid signature) without the JSON unmarshal of the
body ever being consulted. -/
theorem C7_signature_before_parse (secret : List Nat) (signatureHeader : String)
    (body : List Nat) (hsecret : secret ≠ [])
    (hsig : signatureHeader ≠ hexEncode (hmacSha256 secret body)) :
    (∀ unmarshal, ValidateWebhook secret signatureHeader body unmarshal =
        Except.error WebhookError.missingSignature ∨
      ValidateWebhook secret signatureHeader body unmarshal =
        Except.error WebhookError.invalidSignature) ∧
    (∀ u1 u2, ValidateWebhook secret signatureHeader body u1 =
      ValidateWebhook secret signatureHeader body u2) ∧
    generateSignature body secret = hexEncode (hmacSha256 secret body) := by
  have hgen : generateSignature body secret = hexEncode (hmacSha256 secret body) := rfl
  have hsig2 : signatureHeader ≠ generateSignature body secret := by
    rw [hgen]
    exact hsig
  refine ⟨?_, ?_, hgen⟩
  · intro u
    by_cases hempty : signatureHeader = ""
    · exact Or.inl (by simp [ValidateWebhook, hsecret, hempty])
    · exact Or.inr (by simp [ValidateWebhook, hsecret, hempty, hsig2])
  · intro u1 u2
    by_cases hempty : signatureHeader = ""
    · simp [ValidateWebhook, hsecret, hempty]
    · simp [ValidateWebhook, hsecret, hempty, hsig2]

/-- C8: the version-family key is the version with its last dash-delimited
segment removed, and the full version is stored under that key inside the
nested repoName to pkgName mapping. -/
theorem C8_family_and_storage :
    (∀ (a b : List Char), '-' ∉ b →
        versionFamily (String.mk (a ++ '-' :: b)) = String.mk a) ∧
    ∀ (file : Option Document) (repoName pkgName version : String),
      docLookup (publishDoc file repoName pkgName version) repoName pkgName
        (versionFamily version) = some version :=
  ⟨versionFamily_strip_last, docLookup_publishDoc_self⟩

theorem C8_witness :
    versionFamily (String.mk ("1.2.3".data ++ '-' :: "45".data)) = String.mk "1.2.3".data :=
  C8_family_and_storage.1 "1.2.3".data "45".data (by decide)

/-- C9 (counterexample): for a reference refs/heads/feature/x with an empty
branch field, ValidateWebhook resolves the branch to feature, not to the
full slashed name feature/x. -/
theorem C9_counterexample :
    ValidateWebhook [] "" []
        (fun _ => some ⟨"push", "", "refs/heads/feature/x"⟩) =
      Except.ok (⟨"push", "feature", "refs/heads/feature/x"⟩ : WebhookTriggerRequest) ∧
    ("feature" : String) ≠ "feature/x" :=
  ⟨rfl, by decide⟩

/-- C9 (amended): when branch is empty and the reference is refs/heads/
followed by a name, ValidateWebhook sets the branch to the third
slash-delimited field of the reference, which is the name up to its first
slash (the whole name exactly when it contains no slash). -/
theorem C9_branch_is_first_segment (ev : String) (name : List Char) :
    ValidateWebhook [] "" []
        (fun _ => some ⟨ev, "", String.mk ("refs/heads/".data ++ name)⟩) =
      Except.ok (⟨ev, String.mk (name.takeWhile (fun c => c != '/')),
        String.mk ("refs/heads/".data ++ name)⟩ : WebhookTriggerRequest) := by
  obtain ⟨rest, hrest⟩ := splitSep_head '/' name
  have h1 : ("refs/heads/".data ++ name) =
      "refs".data ++ '/' :: ("heads".data ++ '/' :: name) := rfl
  have hsplit : splitSep '/' ("refs/heads/".data ++ name) =
      "refs".data :: "heads".data :: (name.takeWhile (fun c => c != '/')) :: rest := by
    rw [h1, splitSep_append_sep '/' "refs".data _ (by decide),
      splitSep_append_sep '/' "heads".data _ (by decide), hrest]
  have hne : String.mk ("refs/heads/".data ++ name) ≠ "" := by
    intro hcontra
    have h2 := congrArg String.data hcontra
    simp at h2
  have hext : extractBranch ⟨ev, "", String.mk ("refs/heads/".data ++ name)⟩ =
      ⟨ev, String.mk (name.takeWhile (fun c => c != '/')),
        String.mk ("refs/heads/".data ++ name)⟩ := by
    rw [extractBranch, if_pos ⟨rfl, hne⟩]
    rw [show (String.mk ("refs/heads/".data ++ name)).data =
      "refs/heads/".data ++ name from rfl]
    rw [hsplit]
    show (if "refs".data = "refs".data ∧ "heads".data = "heads".data then _ else _) = _
    rw [if_pos ⟨rfl, rfl⟩]
  rw [ValidateWebhook, if_neg (not_not_intro rfl)]
  show Except.ok (extractBranch ⟨ev, "", String.mk ("refs/heads/".data ++ name)⟩) = _
  rw [hext]

/-- C10: a version with no dash yields the empty string as its family key:
it is not rejected (the call proceeds to a write) and is stored under the
empty-string key, not under the version string itself. -/
theorem C10_no_dash_empty_family :
    (∀ version : String, '-' ∉ version.data → versionFamily version = "") ∧
    docLookup (publishDoc none "repo" "pkg" "1.2.3") "repo" "pkg" "" = some "1.2.3" ∧
    docLookup (publishDoc none "repo" "pkg" "1.2.3") "repo" "pkg" "1.2.3" = none ∧
    (UpdateArtifactsRepo none "repo" "pkg" "1.2.3" true).alreadyPublished = false :=
  ⟨versionFamily_no_dash, by decide, by decide, by decide⟩

theorem C10_witness : versionFamily "1.2.3" = "" :=
  C10_no_dash_empty_family.1 "1.2.3" (by decide)

set_option maxRecDepth 40000 in

theorem C7_witness :
    (∀ unmarshal, ValidateWebhook (asciiBytes "s3cr3t") "00"
        (asciiBytes "\x7b\"event\":\"push\"\x7d") unmarshal =
        Except.error WebhookError.missingSignature ∨
      ValidateWebhook (asciiBytes "s3cr3t") "00"
        (asciiBytes "\x7b\"event\":\"push\"\x7d") unmarshal =
        Except.error WebhookError.invalidSignature) ∧
    (∀ u1 u2, ValidateWebhook (asciiBytes "s3cr3t") "00"
        (asciiBytes "\x7b\"event\":\"push\"\x7d") u1 =
      ValidateWebhook (asciiBytes "s3cr3t") "00"
        (asciiBytes "\x7b\"event\":\"push\"\x7d") u2) ∧
    generateSignature (asciiBytes "\x7b\"event\":\"push\"\x7d") (asciiBytes "s3cr3t") =
      hexEncode (hmacSha256 (asciiBytes "s3cr3t") (asciiBytes "\x7b\"event\":\"push\"\x7d")) :=
  C7_signature_before_parse (asciiBytes "s3cr3t") "00"
    (asciiBytes "\x7b\"event\":\"push\"\x7d") (by decide) (by decide)

end GitWatcher
